import Mathlib

/-!
Shallow embedding of the `Database` class of `src/src.py` (a SQLite-backed
word/hash store).  The persistent table `words (id INTEGER PRIMARY KEY,
word TEXT NOT NULL UNIQUE, hash TEXT NOT NULL UNIQUE)` is modelled as a list
of records in storage (rowid) order.  The digest computation
(`hash_word`, delegating to hashlib) is modelled as an abstract function
`hashFn : String → String`, fixed for the store's lifetime, exactly as
`self.hash_function` is fixed at construction.  SQLite statement semantics
used by the code are embedded explicitly:

* a plain `INSERT` whose `IntegrityError` is caught (`insert_word`) and an
  `INSERT OR IGNORE` (`batch_insert`) both leave the table unchanged when the
  new row's word or hash already occurs, and otherwise append a row whose
  `id` is one more than the current maximum rowid;
* `UPDATE ... WHERE word = ?` rewrites every matching row and aborts the
  whole statement (rolling it back, state unchanged) with an
  `IntegrityError` when a set value collides with a row not being updated;
* `DELETE FROM words WHERE word = ?` filters the matching rows out;
* `SELECT ... WHERE` with `fetchone` returns the first matching row, if any.
-/

/-- One row of the `words` table. -/
structure DBRecord where
  id : Nat
  word : String
  hash : String
deriving DecidableEq, Repr

/-- The table contents, in rowid order. -/
abbrev DBState := List DBRecord

/-- The error raised by SQLite on a uniqueness violation
(`sqlite3.IntegrityError`); the spec calls it `ConstraintViolation`. -/
inductive DBError where
  | constraintViolation
deriving DecidableEq, Repr

/-- The rowid SQLite assigns to a newly inserted row of this table:
one more than the current maximum rowid (1 on an empty table). -/
def freshId (s : DBState) : Nat :=
  (s.map (fun r => r.id)).foldr max 0 + 1

/-- Does some row carry this word or this hash?  This is the condition under
which an `INSERT` into `words` violates a UNIQUE constraint. -/
def insertConflict (s : DBState) (w h : String) : Bool :=
  s.any (fun r => r.word = w || r.hash = h)

/-- `Database.insert_word` (src/src.py:39-47): compute the digest of `word`,
`INSERT` the pair, and swallow the `IntegrityError` raised when a row with
this word or this hash already exists. -/
def insert_word (hashFn : String → String) (word : String) (s : DBState) :
    DBState :=
  let word_hash := hashFn word
  if insertConflict s word word_hash then s
  else s ++ [⟨freshId s, word, word_hash⟩]

/-- `Database.delete_word` (src/src.py:49-51):
`DELETE FROM words WHERE word = ?`. -/
def delete_word (word : String) (s : DBState) : DBState :=
  s.filter (fun r => r.word ≠ word)

/-- `Database.search_word` (src/src.py:53-55): `SELECT hash FROM words WHERE
word = ?` followed by `fetchone` — the first matching row's hash, if any. -/
def search_word (word : String) (s : DBState) : Option String :=
  (s.find? (fun r => r.word = word)).map (fun r => r.hash)

/-- `Database.search_hash` (src/src.py:57-59): `SELECT word FROM words WHERE
hash = ?` followed by `fetchone`. -/
def search_hash (hash_value : String) (s : DBState) : Option String :=
  (s.find? (fun r => r.hash = hash_value)).map (fun r => r.word)

/-- `Database.list_all_words` (src/src.py:61-63). -/
def list_all_words (s : DBState) : List (String × String) :=
  s.map (fun r => (r.word, r.hash))

/-- `Database.get_word_count` (src/src.py:93-95). -/
def get_word_count (s : DBState) : Nat := s.length

/-- `Database.update_word` (src/src.py:72-77): recompute the digest of
`new_word`, then `UPDATE words SET word = ?, hash = ? WHERE word = ?`.
SQLite rewrites every row matching `old_word`; if a written value collides
with a row that is not being updated the statement aborts with
`IntegrityError` (uncaught in the source) and, under the default ABORT
conflict resolution, the statement's changes are rolled back. -/
def update_word (hashFn : String → String) (old_word new_word : String)
    (s : DBState) : Except DBError DBState :=
  let new_hash := hashFn new_word
  if s.any (fun r => r.word = old_word) then
    if s.any (fun r => r.word ≠ old_word ∧
        (r.word = new_word ∨ r.hash = new_hash)) then
      .error .constraintViolation
    else
      .ok (s.map (fun r =>
        if r.word = old_word then ⟨r.id, new_word, new_hash⟩ else r))
  else
    .ok s

/-- `Database.batch_insert` (src/src.py:79-84): digest every word, then
`executemany` an `INSERT OR IGNORE` — each row in order is inserted unless
its word or hash already occurs (rows added earlier in the same batch
included), in which case it is silently skipped. -/
def batch_insert (hashFn : String → String) (words : List String)
    (s : DBState) : DBState :=
  let words_with_hash := words.map (fun word => (word, hashFn word))
  words_with_hash.foldl
    (fun acc p =>
      if insertConflict acc p.1 p.2 then acc
      else acc ++ [⟨freshId acc, p.1, p.2⟩]) s

/-- One call into the store's mutating API. -/
inductive DBOp where
  | insert (word : String)
  | batchInsert (words : List String)
  | delete (word : String)
  | update (old_word new_word : String)
deriving DecidableEq, Repr

/-- The state after one operation.  `update_word`'s `IntegrityError`
propagates to the caller with the statement rolled back, so on error the
store keeps its previous state. -/
def applyOp (hashFn : String → String) (op : DBOp) (s : DBState) : DBState :=
  match op with
  | .insert w => insert_word hashFn w s
  | .batchInsert ws => batch_insert hashFn ws s
  | .delete w => delete_word w s
  | .update o n =>
    match update_word hashFn o n s with
    | .ok s' => s'
    | .error _ => s

/-- The state after a sequence of operations. -/
def runOps (hashFn : String → String) (ops : List DBOp) (s : DBState) :
    DBState :=
  ops.foldl (fun st op => applyOp hashFn op st) s

/-- Dual uniqueness: no two rows share a word and no two rows share a hash
(the two UNIQUE constraints of the schema, src/src.py:29-37). -/
def dualUnique (s : DBState) : Prop :=
  s.Pairwise (fun r r' => r.word ≠ r'.word ∧ r.hash ≠ r'.hash)

/-- Invariant I1: every row's hash is the digest of its word under the
store's fixed algorithm. -/
def hashConsistent (hashFn : String → String) (s : DBState) : Prop :=
  ∀ r ∈ s, r.hash = hashFn r.word

instance : DecidablePred dualUnique := by
  unfold dualUnique; infer_instance

instance (hashFn : String → String) :
    DecidablePred (hashConsistent hashFn) := by
  unfold hashConsistent; infer_instance

/-- Number of rows holding a given word. -/
def countWord (s : DBState) (w : String) : Nat :=
  (s.filter (fun r => r.word = w)).length

/-! ### Helper lemmas -/

lemma insertConflict_eq_false_iff (s : DBState) (w h : String) :
    insertConflict s w h = false ↔ ∀ r ∈ s, r.word ≠ w ∧ r.hash ≠ h := by
  simp [insertConflict, not_or]

lemma insert_word_of_conflict (hashFn : String → String) (w : String)
    (s : DBState) (hc : insertConflict s w (hashFn w) = true) :
    insert_word hashFn w s = s := by
  simp [insert_word, hc]

lemma insert_word_of_no_conflict (hashFn : String → String) (w : String)
    (s : DBState) (hc : insertConflict s w (hashFn w) = false) :
    insert_word hashFn w s = s ++ [⟨freshId s, w, hashFn w⟩] := by
  simp [insert_word, hc]

lemma insertConflict_insert_word (hashFn : String → String) (w : String)
    (s : DBState) :
    insertConflict (insert_word hashFn w s) w (hashFn w) = true := by
  by_cases hc : insertConflict s w (hashFn w) = true
  · rw [insert_word_of_conflict hashFn w s hc]; exact hc
  · rw [insert_word_of_no_conflict hashFn w s (by simpa using hc)]
    simp [insertConflict]

lemma countWord_append (s t : DBState) (w : String) :
    countWord (s ++ t) w = countWord s w + countWord t w := by
  simp [countWord]

lemma countWord_eq_zero (s : DBState) (w : String)
    (h : ∀ r ∈ s, r.word ≠ w) : countWord s w = 0 := by
  simp only [countWord, List.length_eq_zero, List.filter_eq_nil_iff]
  intro r hr
  simp [h r hr]

lemma batch_insert_eq_foldl (hashFn : String → String) (words : List String)
    (s : DBState) :
    batch_insert hashFn words s =
      words.foldl (fun acc word => insert_word hashFn word acc) s := by
  simp only [batch_insert, List.foldl_map]
  rfl

/-! ### Claim theorems -/

/-- Claim C3: insert is idempotent and silently skips duplicates.  If a row
with the word or with its digest already exists, `insert_word` leaves the
store unchanged (and signals nothing); doubling an insert equals a single
insert; and inserting a fresh word twice leaves exactly one row for it. -/
theorem insert_idempotent_skips_duplicates (hashFn : String → String)
    (s : DBState) (w : String) :
    (insertConflict s w (hashFn w) = true → insert_word hashFn w s = s) ∧
    insert_word hashFn w (insert_word hashFn w s) = insert_word hashFn w s ∧
    (insertConflict s w (hashFn w) = false →
      countWord (insert_word hashFn w (insert_word hashFn w s)) w = 1) := by
  refine ⟨insert_word_of_conflict hashFn w s, ?_, ?_⟩
  · exact insert_word_of_conflict hashFn w _
      (insertConflict_insert_word hashFn w s)
  · intro hc
    rw [insert_word_of_conflict hashFn w _
      (insertConflict_insert_word hashFn w s),
      insert_word_of_no_conflict hashFn w s hc, countWord_append,
      countWord_eq_zero s w (fun r hr =>
        ((insertConflict_eq_false_iff s w (hashFn w)).mp hc r hr).1)]
    simp [countWord]

/-- Witness for C3 at a concrete input. -/
theorem insert_idempotent_skips_duplicates_witness :
    insert_word (fun w => w) "a"
        (insert_word (fun w => w) "a" ([] : DBState)) =
      insert_word (fun w => w) "a" ([] : DBState) ∧
    countWord (insert_word (fun w => w) "a"
        (insert_word (fun w => w) "a" ([] : DBState))) "a" = 1 :=
  ⟨(insert_idempotent_skips_duplicates (fun w => w) [] "a").2.1,
   (insert_idempotent_skips_duplicates (fun w => w) [] "a").2.2 (by decide)⟩

/-- Claim C9: deleting an absent word is a silent no-op: when no row holds
the word, `delete_word` leaves the store unchanged (and raises nothing). -/
theorem delete_absent_word_noop (s : DBState) (w : String)
    (h : ∀ r ∈ s, r.word ≠ w) : delete_word w s = s := by
  rw [delete_word, List.filter_eq_self]
  intro r hr
  simp [h r hr]

/-- Witness for C9 at a concrete input. -/
theorem delete_absent_word_noop_witness :
    delete_word "b" [⟨1, "a", "ha"⟩] = [⟨1, "a", "ha"⟩] :=
  delete_absent_word_noop [⟨1, "a", "ha"⟩] "b" (by decide)

/-- Claim C4: `batch_insert` on any sequence of words produces the same
store state as inserting each word in order; within a batch the first
occurrence wins and later word/hash duplicates are skipped, so
`batch_insert [a, a, b]` on an empty store leaves exactly one row for `a`
and one for `b` (for distinct words whose digests differ). -/
theorem batch_insert_equals_sequential_inserts (hashFn : String → String)
    (words : List String) (s : DBState) (a b : String) (hab : a ≠ b)
    (hhash : hashFn a ≠ hashFn b) :
    batch_insert hashFn words s =
      words.foldl (fun acc word => insert_word hashFn word acc) s ∧
    countWord (batch_insert hashFn [a, a, b] []) a = 1 ∧
    countWord (batch_insert hashFn [a, a, b] []) b = 1 := by
  refine ⟨batch_insert_eq_foldl hashFn words s, ?_, ?_⟩ <;>
    simp [batch_insert, insertConflict, countWord, hab, hab.symm, hhash,
      hhash.symm]

/-- Witness for C4 at a concrete input. -/
theorem batch_insert_equals_sequential_inserts_witness :
    batch_insert (fun w => w) ["a", "a", "b"] [] =
      List.foldl (fun acc word => insert_word (fun w => w) word acc) []
        ["a", "a", "b"] ∧
    countWord (batch_insert (fun w => w) ["a", "a", "b"] []) "a" = 1 ∧
    countWord (batch_insert (fun w => w) ["a", "a", "b"] []) "b" = 1 :=
  batch_insert_equals_sequential_inserts (fun w => w) ["a", "a", "b"] []
    "a" "b" (by decide) (by decide)

/-! ### Invariant preservation -/

lemma insert_word_preserves_inv (hashFn : String → String) (w : String)
    (s : DBState) (hu : dualUnique s) (hc : hashConsistent hashFn s) :
    dualUnique (insert_word hashFn w s) ∧
      hashConsistent hashFn (insert_word hashFn w s) := by
  by_cases hcon : insertConflict s w (hashFn w) = true
  · rw [insert_word_of_conflict hashFn w s hcon]
    exact ⟨hu, hc⟩
  · rw [insert_word_of_no_conflict hashFn w s (by simpa using hcon)]
    have hfresh := (insertConflict_eq_false_iff s w (hashFn w)).mp
      (by simpa using hcon)
    constructor
    · rw [dualUnique, List.pairwise_append]
      refine ⟨hu, List.pairwise_singleton _ _, ?_⟩
      intro a ha b hb
      simp only [List.mem_singleton] at hb
      subst hb
      exact ⟨(hfresh a ha).1, (hfresh a ha).2⟩
    · intro r hr
      rcases List.mem_append.mp hr with h | h
      · exact hc r h
      · simp only [List.mem_singleton] at h
        subst h
        rfl

lemma batch_insert_preserves_inv (hashFn : String → String)
    (words : List String) (s : DBState) (hu : dualUnique s)
    (hc : hashConsistent hashFn s) :
    dualUnique (batch_insert hashFn words s) ∧
      hashConsistent hashFn (batch_insert hashFn words s) := by
  rw [batch_insert_eq_foldl]
  induction words generalizing s with
  | nil => exact ⟨hu, hc⟩
  | cons w ws ih =>
    simp only [List.foldl_cons]
    exact ih _ (insert_word_preserves_inv hashFn w s hu hc).1
      (insert_word_preserves_inv hashFn w s hu hc).2

lemma delete_word_preserves_inv (hashFn : String → String) (w : String)
    (s : DBState) (hu : dualUnique s) (hc : hashConsistent hashFn s) :
    dualUnique (delete_word w s) ∧
      hashConsistent hashFn (delete_word w s) := by
  constructor
  · exact List.Pairwise.sublist (List.filter_sublist s) hu
  · intro r hr
    exact hc r (List.mem_of_mem_filter hr)

lemma update_word_ok_inv (hashFn : String → String) (o n : String)
    (s s' : DBState) (hu : dualUnique s) (hc : hashConsistent hashFn s)
    (h : update_word hashFn o n s = .ok s') :
    dualUnique s' ∧ hashConsistent hashFn s' := by
  unfold update_word at h
  simp only [] at h
  split at h
  · split at h
    · exact absurd h (by simp)
    · next hconf =>
      simp only [List.any_eq_true, decide_eq_true_eq, not_exists, not_and,
        not_or] at hconf
      cases h
      constructor
      · rw [dualUnique, List.pairwise_map]
        refine List.Pairwise.imp_of_mem ?_ hu
        intro a b ha hb hab
        by_cases hao : a.word = o <;> by_cases hbo : b.word = o <;>
          simp only [hao, hbo, if_pos, if_neg, ite_true, ite_false]
        · exact absurd (hao.trans hbo.symm) hab.1
        · have hb' := hconf b hb hbo
          exact ⟨fun he => hb'.1 he.symm, fun he => hb'.2 he.symm⟩
        · have ha' := hconf a ha hao
          exact ⟨ha'.1, ha'.2⟩
        · exact hab
      · intro r hr
        rcases List.mem_map.mp hr with ⟨a, ha, rfl⟩
        by_cases hao : a.word = o
        · simp only [hao, ite_true]
        · simp only [hao, ite_false]
          exact hc a ha
  · cases h
    exact ⟨hu, hc⟩

lemma applyOp_preserves_inv (hashFn : String → String) (op : DBOp)
    (s : DBState) (hu : dualUnique s) (hc : hashConsistent hashFn s) :
    dualUnique (applyOp hashFn op s) ∧
      hashConsistent hashFn (applyOp hashFn op s) := by
  cases op with
  | insert w => exact insert_word_preserves_inv hashFn w s hu hc
  | batchInsert ws => exact batch_insert_preserves_inv hashFn ws s hu hc
  | delete w => exact delete_word_preserves_inv hashFn w s hu hc
  | update o n =>
    show dualUnique (match update_word hashFn o n s with
        | .ok s' => s' | .error _ => s) ∧ _
    cases hup : update_word hashFn o n s with
    | ok s' =>
      simp only [applyOp, hup]
      exact update_word_ok_inv hashFn o n s s' hu hc hup
    | error e =>
      simp only [applyOp, hup]
      exact ⟨hu, hc⟩

lemma runOps_preserves_inv (hashFn : String → String) (ops : List DBOp)
    (s : DBState) (hu : dualUnique s) (hc : hashConsistent hashFn s) :
    dualUnique (runOps hashFn ops s) ∧
      hashConsistent hashFn (runOps hashFn ops s) := by
  induction ops generalizing s with
  | nil => exact ⟨hu, hc⟩
  | cons op ops ih =>
    simp only [runOps, List.foldl_cons]
    exact ih _ (applyOp_preserves_inv hashFn op s hu hc).1
      (applyOp_preserves_inv hashFn op s hu hc).2

/-- Claim C1: dual uniqueness is an invariant — after any sequence of
insert, batch-insert, delete, and update operations starting from the empty
store, no two rows share a word and no two rows share a hash. -/
theorem dual_uniqueness_invariant (hashFn : String → String)
    (ops : List DBOp) : dualUnique (runOps hashFn ops []) :=
  (runOps_preserves_inv hashFn ops [] List.Pairwise.nil
    (fun r hr => absurd hr (List.not_mem_nil r))).1

/-- Claim C2: hash consistency is an invariant — after any sequence of
operations on a store with a fixed algorithm, every row's hash is the
digest of its word (insert and update always recompute it). -/
theorem hash_consistency_invariant (hashFn : String → String)
    (ops : List DBOp) : hashConsistent hashFn (runOps hashFn ops []) :=
  (runOps_preserves_inv hashFn ops [] List.Pairwise.nil
    (fun r hr => absurd hr (List.not_mem_nil r))).2

/-! ### Update collision behaviour, round trips -/

/-- Claim C5: update fails atomically on collision.  In any store state
(satisfying the schema's dual uniqueness) where a row holds `old`, if the
new word's text or digest coincides with a row other than the one being
updated, `update_word` raises the constraint violation and the store —
the other row included — is unchanged. -/
theorem update_collision_fails_atomically (hashFn : String → String)
    (s : DBState) (old new : String)
    (hex : ∃ r ∈ s, r.word = old)
    (hcol : ∃ r ∈ s, r.word ≠ old ∧ (r.word = new ∨ r.hash = hashFn new)) :
    update_word hashFn old new s = .error .constraintViolation ∧
    applyOp hashFn (.update old new) s = s := by
  have h1 : (s.any fun r => r.word = old) = true := by
    simp only [List.any_eq_true, decide_eq_true_eq]
    exact hex
  have h2 : (s.any fun r =>
      r.word ≠ old ∧ (r.word = new ∨ r.hash = hashFn new)) = true := by
    simp only [List.any_eq_true, decide_eq_true_eq]
    exact hcol
  have herr : update_word hashFn old new s = .error .constraintViolation := by
    unfold update_word
    simp only [h1, h2, if_true]
  exact ⟨herr, by simp only [applyOp, herr]⟩

/-- Witness for C5 at a concrete input. -/
theorem update_collision_fails_atomically_witness :
    update_word (fun w => w) "a" "b" [⟨1, "a", "a"⟩, ⟨2, "b", "b"⟩] =
      .error .constraintViolation ∧
    applyOp (fun w => w) (.update "a" "b") [⟨1, "a", "a"⟩, ⟨2, "b", "b"⟩] =
      [⟨1, "a", "a"⟩, ⟨2, "b", "b"⟩] :=
  update_collision_fails_atomically (fun w => w)
    [⟨1, "a", "a"⟩, ⟨2, "b", "b"⟩] "a" "b"
    ⟨⟨1, "a", "a"⟩, by decide, by decide⟩
    ⟨⟨2, "b", "b"⟩, by decide, by decide, Or.inl (by decide)⟩

/-- Claim C10: self-update is not a collision.  In any store state
satisfying the invariants, updating an existing word to itself succeeds
(the matching row's own word and hash do not count as a colliding other
row) and leaves the state unchanged. -/
theorem self_update_succeeds_unchanged (hashFn : String → String)
    (s : DBState) (w : String) (hu : dualUnique s)
    (hc : hashConsistent hashFn s) (hex : ∃ r ∈ s, r.word = w) :
    update_word hashFn w w s = .ok s := by
  obtain ⟨r0, hr0, hr0w⟩ := hex
  have h1 : (s.any fun r => r.word = w) = true := by
    simp only [List.any_eq_true, decide_eq_true_eq]
    exact ⟨r0, hr0, hr0w⟩
  have hsymm : Symmetric (fun r r' : DBRecord =>
      r.word ≠ r'.word ∧ r.hash ≠ r'.hash) :=
    fun a b hab => ⟨hab.1.symm, hab.2.symm⟩
  have h2 : (s.any fun r =>
      r.word ≠ w ∧ (r.word = w ∨ r.hash = hashFn w)) = false := by
    simp only [List.any_eq_false, decide_eq_true_eq]
    rintro r hr ⟨hrw, hcol | hcol⟩
    · exact hrw hcol
    · have hne : r ≠ r0 := fun he => hrw (he ▸ hr0w)
      have hdist := hu.forall hsymm hr hr0 hne
      have hr0hash : r0.hash = hashFn w := by rw [hc r0 hr0, hr0w]
      exact hdist.2 (hcol.trans hr0hash.symm)
  unfold update_word
  simp only [h1, h2, if_true, if_false, Bool.false_eq_true, ite_false,
    ite_true, Except.ok.injEq]
  have : ∀ r ∈ s, (if r.word = w then
      (⟨r.id, w, hashFn w⟩ : DBRecord) else r) = r := by
    intro r hr
    by_cases hrw : r.word = w
    · have : r.hash = hashFn w := by rw [hc r hr, hrw]
      simp only [hrw, if_true, ite_true]
      cases r
      simp_all
    · simp [hrw]
  calc s.map _ = s.map id := List.map_congr_left (fun r hr => this r hr)
    _ = s := List.map_id s

/-- Witness for C10 at a concrete input. -/
theorem self_update_succeeds_unchanged_witness :
    update_word (fun w => w) "a" "a" [⟨1, "a", "a"⟩] = .ok [⟨1, "a", "a"⟩] :=
  self_update_succeeds_unchanged (fun w => w) [⟨1, "a", "a"⟩] "a"
    (by decide) (by decide) ⟨⟨1, "a", "a"⟩, by decide, by decide⟩

lemma dbDistinct_symm :
    Symmetric (fun r r' : DBRecord => r.word ≠ r'.word ∧ r.hash ≠ r'.hash) :=
  fun _ _ hab => ⟨hab.1.symm, hab.2.symm⟩

/-- Claim C8: word-to-hash-to-word round trip.  In any store state
satisfying dual uniqueness, if some row holds the word `w` then
`search_word w` returns its hash (not the absent result) and `search_hash`
on that hash returns `w`. -/
theorem search_roundtrip (s : DBState)
    (w : String) (hu : dualUnique s) (hex : ∃ r ∈ s, r.word = w) :
    ∃ h, search_word w s = some h ∧ search_hash h s = some w := by
  have hfind : (s.find? fun r => r.word = w).isSome :=
    List.find?_isSome.mpr (by
      obtain ⟨r, hr, hrw⟩ := hex
      exact ⟨r, hr, by simp [hrw]⟩)
  obtain ⟨r0, hfind0⟩ := Option.isSome_iff_exists.mp hfind
  have hr0mem : r0 ∈ s := List.mem_of_find?_eq_some hfind0
  have hr0w : r0.word = w := by simpa using List.find?_some hfind0
  refine ⟨r0.hash, ?_, ?_⟩
  · simp [search_word, hfind0]
  · have hfind2 : (s.find? fun r => r.hash = r0.hash).isSome :=
      List.find?_isSome.mpr ⟨r0, hr0mem, by simp⟩
    obtain ⟨r1, hfind1⟩ := Option.isSome_iff_exists.mp hfind2
    have hr1mem : r1 ∈ s := List.mem_of_find?_eq_some hfind1
    have hr1h : r1.hash = r0.hash := by simpa using List.find?_some hfind1
    have heq : r1 = r0 := by
      by_contra hne
      exact (hu.forall dbDistinct_symm hr1mem hr0mem hne).2 hr1h
    simp [search_hash, hfind1, heq, hr0w]

/-- Witness for C8 at a concrete input. -/
theorem search_roundtrip_witness :
    ∃ h, search_word "a" [⟨1, "a", "ha"⟩] = some h ∧
      search_hash h [⟨1, "a", "ha"⟩] = some "a" :=
  search_roundtrip [⟨1, "a", "ha"⟩] "a" (by decide)
    ⟨⟨1, "a", "ha"⟩, by decide, by decide⟩

/-! ### Empty words -/

/-- Counterexample to claim C7: the schema's `NOT NULL` admits the empty
string, so inserting the empty word persists a row whose word is empty. -/
theorem empty_word_persisted_counterexample :
    ((runOps (fun w => w) [DBOp.insert ""] []).any
      (fun r => r.word = "")) = true := by decide

/-- Does an operation supply only non-empty words to be stored?  (`delete`
stores nothing.) -/
def nonemptyInputs : DBOp → Prop
  | .insert w => w ≠ ""
  | .batchInsert ws => ∀ w ∈ ws, w ≠ ""
  | .delete _ => True
  | .update _ n => n ≠ ""

lemma update_word_ok_words (hashFn : String → String) (o n : String)
    (s s' : DBState) (h : update_word hashFn o n s = .ok s') :
    ∀ r' ∈ s', r'.word = n ∨ r' ∈ s := by
  unfold update_word at h
  simp only [] at h
  split at h
  · split at h
    · exact absurd h (by simp)
    · cases h
      intro r' hr'
      rcases List.mem_map.mp hr' with ⟨a, ha, rfl⟩
      by_cases hao : a.word = o
      · exact Or.inl (by simp [hao])
      · simp only [hao, ite_false]
        exact Or.inr ha
  · cases h
    exact fun r' hr' => Or.inr hr'

lemma insert_word_nonempty (hashFn : String → String) (w : String)
    (s : DBState) (hs : ∀ r ∈ s, r.word ≠ "") (hw : w ≠ "") :
    ∀ r ∈ insert_word hashFn w s, r.word ≠ "" := by
  by_cases hc : insertConflict s w (hashFn w) = true
  · rw [insert_word_of_conflict hashFn w s hc]; exact hs
  · rw [insert_word_of_no_conflict hashFn w s (by simpa using hc)]
    intro r hr
    rcases List.mem_append.mp hr with h | h
    · exact hs r h
    · simp only [List.mem_singleton] at h
      subst h
      exact hw

lemma batch_insert_nonempty (hashFn : String → String) (ws : List String)
    (s : DBState) (hs : ∀ r ∈ s, r.word ≠ "") (hws : ∀ w ∈ ws, w ≠ "") :
    ∀ r ∈ batch_insert hashFn ws s, r.word ≠ "" := by
  rw [batch_insert_eq_foldl]
  induction ws generalizing s with
  | nil => exact hs
  | cons w ws ih =>
    simp only [List.foldl_cons]
    exact ih _ (insert_word_nonempty hashFn w s hs
        (hws w (List.mem_cons_self w ws)))
      (fun v hv => hws v (List.mem_cons_of_mem w hv))

lemma applyOp_nonempty (hashFn : String → String) (op : DBOp) (s : DBState)
    (hs : ∀ r ∈ s, r.word ≠ "") (hop : nonemptyInputs op) :
    ∀ r ∈ applyOp hashFn op s, r.word ≠ "" := by
  cases op with
  | insert w => exact insert_word_nonempty hashFn w s hs hop
  | batchInsert ws => exact batch_insert_nonempty hashFn ws s hs hop
  | delete w =>
    intro r hr
    exact hs r (List.mem_of_mem_filter hr)
  | update o n =>
    cases hup : update_word hashFn o n s with
    | ok s' =>
      simp only [applyOp, hup]
      intro r hr
      rcases update_word_ok_words hashFn o n s s' hup r hr with h | h
      · exact h ▸ hop
      · exact hs r h
    | error e =>
      simp only [applyOp, hup]
      exact hs

lemma runOps_nonempty (hashFn : String → String) (ops : List DBOp)
    (s : DBState) (hs : ∀ r ∈ s, r.word ≠ "")
    (hne : ∀ op ∈ ops, nonemptyInputs op) :
    ∀ r ∈ runOps hashFn ops s, r.word ≠ "" := by
  induction ops generalizing s with
  | nil => exact hs
  | cons op ops ih =>
    simp only [runOps, List.foldl_cons]
    exact ih _ (applyOp_nonempty hashFn op s hs
        (hne op (List.mem_cons_self op ops)))
      (fun o ho => hne o (List.mem_cons_of_mem op ho))

/-- Amended claim C7: the store itself does not reject the empty string
(SQLite's `NOT NULL` admits `''`), but as long as the empty string is never
supplied as a word to insert, batch-insert, or as update's new word, no
persisted row has an empty word. -/
theorem words_nonempty_of_nonempty_inputs (hashFn : String → String)
    (ops : List DBOp) (hne : ∀ op ∈ ops, nonemptyInputs op) (r : DBRecord)
    (hr : r ∈ runOps hashFn ops []) : r.word ≠ "" :=
  runOps_nonempty hashFn ops []
    (fun r' hr' => absurd hr' (List.not_mem_nil r')) hne r hr

/-- Witness for the amended C7 at a concrete input. -/
theorem words_nonempty_of_nonempty_inputs_witness :
    (⟨1, "a", "a"⟩ : DBRecord).word ≠ "" :=
  words_nonempty_of_nonempty_inputs (fun w => w) [DBOp.insert "a"]
    (by
      intro op hop
      simp only [List.mem_singleton] at hop
      subst hop
      simp [nonemptyInputs])
    ⟨1, "a", "a"⟩ (by decide)
